import Mathlib

/- Shallow embedding of the agentic RAG core of the Nigeria Tax Reform
   Bills assistant (src/ai_engine/agentic_rag_core.py), together with the
   claims of the specification settled against it.

   The embedding covers: the message/thread data model, the LangGraph
   agent loop built by AgenticRAGGenerator (_build_agent / assistant /
   should_continue / query), the retrieval tool configuration of
   VectorStoreManager.retrieve_documents, the metadata derivation of
   DocumentProcessor (extract_act_metadata / load_documents), and — where
   the behaviour lives in an external library rather than in src/ — a
   model written from the specification's own description (each such
   definition is marked "Modelled from the spec"). -/

namespace NigeriaTaxRAG

/-- Message roles, mirroring the langchain message types the program uses
(SystemMessage, HumanMessage, AIMessage, ToolMessage). -/
inductive Role where
  | system
  | human
  | ai
  | tool
  deriving DecidableEq, Repr

/-- A structured tool-call request carried by an ai message, mirroring the
arguments of the declared `retrieve_documents(query, k)` tool. -/
structure ToolCall where
  query : String
  k : Nat
  deriving DecidableEq, Repr

/-- One conversation message: a role, textual content, and (for ai
messages) the list of pending tool calls. -/
structure Message where
  role : Role
  content : String
  toolCalls : List ToolCall
  deriving DecidableEq, Repr

/-- The human message wrapping a user input, as built in
`AgenticRAGGenerator.query` (`HumanMessage(content=user_input)`). -/
def humanMsg (s : String) : Message := ⟨Role.human, s, []⟩

/- The system prompt content is abridged to its first sentence; the
claims under verification do not depend on the prompt text. -/

/-- The fixed system instruction of `AgenticRAGGenerator.__init__`. -/
def systemPrompt : Message :=
  ⟨Role.system,
   "You are an AI assistant specialized in Nigerian tax law and public finance policy.",
   []⟩

/-- The language-model capability: from a message history it returns the
content and tool calls of one AIMessage (`self.llm_with_tools.invoke`).
Modelling it as a function realizes the scripted stand-in the spec asks
the state machine to be testable against. -/
abbrev LLMCap := List Message → String × List ToolCall

/-- The tool-execution capability: the content a ToolNode puts into the
tool message answering one tool call. -/
abbrev ToolCap := ToolCall → String

/-- The system-prompt injection of the `assistant` node:
`if not messages or messages[0].type != "system": messages = [system] + messages`. -/
def injectSystem (msgs : List Message) : List Message :=
  match msgs with
  | [] => [systemPrompt]
  | m :: _ => if m.role = Role.system then msgs else systemPrompt :: msgs

/-- Whether the `assistant` node injects the system prompt on this state,
i.e. whether the `logger.info("System prompt injected")` line fires. -/
def injectsHere (msgs : List Message) : Bool :=
  match msgs with
  | [] => true
  | m :: _ => decide (m.role ≠ Role.system)

/-- The `assistant` node: inject the system prompt into the local message
list if absent, invoke the model, and return its AIMessage. -/
def assistantNode (llm : LLMCap) (msgs : List Message) : Message :=
  let r := llm (injectSystem msgs)
  ⟨Role.ai, r.1, r.2⟩

/-- The ToolNode: one tool message per tool call of the last ai message. -/
def toolNode (tc : ToolCap) (calls : List ToolCall) : List Message :=
  calls.map (fun c => ⟨Role.tool, tc c, []⟩)

/-- The error raised by the graph runtime when the assistant/tools loop
exceeds the recursion limit (langgraph `GraphRecursionError`). -/
inductive GraphError where
  | recursionLimit
  deriving DecidableEq, Repr

/-- The default recursion limit of the graph runtime; the compiled graph
of `_build_agent` never overrides it. -/
def defaultRecursionLimit : Nat := 25

/-- The compiled graph of `_build_agent`, run on a message state:
START → assistant → (tools → assistant)* → END, with `should_continue`
routing to tools exactly when the last ai message carries tool calls, and
the runtime raising once the loop budget is exhausted.  Alongside the
final message list it returns, as explicit state, the number of
assistant steps in which the system prompt was injected (the
"System prompt injected" log events) and the number of assistant steps
overall. -/
def runGraph (llm : LLMCap) (tc : ToolCap) :
    Nat → List Message → Except GraphError (List Message × Nat × Nat)
  | 0, _ => .error .recursionLimit
  | fuel + 1, msgs =>
    let inj : Nat := if injectsHere msgs then 1 else 0
    let resp := assistantNode llm msgs
    if resp.toolCalls = [] then
      .ok (msgs ++ [resp], inj, 1)
    else
      match runGraph llm tc fuel (msgs ++ [resp] ++ toolNode tc resp.toolCalls) with
      | .error e => .error e
      | .ok (out, i, s) => .ok (out, inj + i, 1 + s)

/-- Per-thread persisted histories: the MemorySaver checkpointer keyed by
`thread_id`; an unknown thread reads as the empty history. -/
abbrev ThreadStore := String → List Message

/-- The store before any turn has run. -/
def emptyStore : ThreadStore := fun _ => []

/-- The `{question, answer}` dictionary `query` returns; `answer` is
`Option` because `final_answer` starts as `None` and may stay so. -/
structure QueryResult where
  question : String
  answer : Option String
  deriving DecidableEq, Repr

/-- The final-answer test of `query`'s scan loop:
`isinstance(message, AIMessage) and message.content and not message.tool_calls`. -/
def isFinalAnswerMsg (m : Message) : Bool :=
  decide (m.role = Role.ai) && decide (m.content ≠ "") &&
    decide (m.toolCalls = ([] : List ToolCall))

/-- One iteration of `query`'s scan loop: overwrite the accumulator when
the message qualifies as a final answer. -/
def scanStep (acc : Option String) (m : Message) : Option String :=
  if isFinalAnswerMsg m then some m.content else acc

/-- The scan loop of `query`: walk all returned messages, keeping the
content of the last one passing `isFinalAnswerMsg`; `None` otherwise. -/
def finalAnswerScan (msgs : List Message) : Option String :=
  msgs.foldl scanStep none

/-- Everything one call of `AgenticRAGGenerator.query` produces: the
returned result, the history the checkpointer now holds for the thread,
and the injection/step instrumentation of the loop. -/
structure TurnOutcome where
  result : QueryResult
  newHistory : List Message
  injections : Nat
  aiSteps : Nat
  deriving DecidableEq, Repr

/-- `AgenticRAGGenerator.query(user_input, thread_id)`: append the user
message to the thread's history, run the compiled graph, and scan the
full returned message list for the final answer. -/
def runTurn (llm : LLMCap) (tc : ToolCap) (limit : Nat) (store : ThreadStore)
    (userInput threadId : String) : Except GraphError TurnOutcome :=
  match runGraph llm tc limit (store threadId ++ [humanMsg userInput]) with
  | .error e => .error e
  | .ok (msgs, inj, steps) =>
    .ok ⟨⟨userInput, finalAnswerScan msgs⟩, msgs, inj, steps⟩

/-- The checkpointer state after a completed turn: the thread's history is
replaced by the turn's final message list; other threads are untouched. -/
def nextStore (store : ThreadStore) (threadId : String) (o : TurnOutcome) :
    ThreadStore :=
  fun t => if t = threadId then o.newHistory else store t

/- Lemmas about the final-answer scan. -/

lemma getLast?_snoc {α : Type} (l : List α) (a : α) :
    (l ++ [a]).getLast? = some a := by
  induction l with
  | nil => rfl
  | cons b bs ih =>
    rw [List.cons_append, List.getLast?_cons, ih]
    rfl

lemma finalAnswerScan_snoc (l : List Message) (m : Message) :
    finalAnswerScan (l ++ [m]) = scanStep (finalAnswerScan l) m := by
  simp [finalAnswerScan, List.foldl_append]

lemma finalAnswerScan_eq_filter_getLast (msgs : List Message) :
    finalAnswerScan msgs =
      ((msgs.filter isFinalAnswerMsg).getLast?).map Message.content := by
  induction msgs using List.reverseRecOn with
  | nil => rfl
  | append_singleton l m ih =>
    rw [finalAnswerScan_snoc, List.filter_append, scanStep]
    by_cases h : isFinalAnswerMsg m
    · simp [h, getLast?_snoc]
    · simp [h, ih]

lemma finalAnswerScan_eq_none_iff (msgs : List Message) :
    finalAnswerScan msgs = none ↔ ∀ m ∈ msgs, isFinalAnswerMsg m = false := by
  induction msgs using List.reverseRecOn with
  | nil => simp [finalAnswerScan]
  | append_singleton l m ih =>
    rw [finalAnswerScan_snoc, scanStep]
    by_cases h : isFinalAnswerMsg m
    · rw [if_pos h]
      constructor
      · intro hc
        exact absurd hc (by simp)
      · intro ha
        exact absurd (ha m (by simp)) (by simp [h])
    · rw [if_neg h, ih]
      rw [Bool.not_eq_true] at h
      constructor
      · intro ha m' hm'
        rcases List.mem_append.mp hm' with hl | he
        · exact ha m' hl
        · rw [List.mem_singleton] at he
          subst he
          exact h
      · intro ha m' hm'
        exact ha m' (List.mem_append.mpr (Or.inl hm'))

lemma finalAnswerScan_some_mem (msgs : List Message) (c : String)
    (h : finalAnswerScan msgs = some c) :
    ∃ m ∈ msgs, isFinalAnswerMsg m = true ∧ m.content = c := by
  induction msgs using List.reverseRecOn with
  | nil => simp [finalAnswerScan] at h
  | append_singleton l m ih =>
    rw [finalAnswerScan_snoc, scanStep] at h
    by_cases hm : isFinalAnswerMsg m
    · rw [if_pos hm] at h
      exact ⟨m, by simp, hm, (Option.some_inj.mp h).symm ▸ rfl⟩
    · rw [if_neg hm] at h
      obtain ⟨m', hmem, hq, hc⟩ := ih h
      exact ⟨m', by simp [hmem], hq, hc⟩

lemma isFinalAnswerMsg_content_ne (m : Message)
    (h : isFinalAnswerMsg m = true) : m.content ≠ "" := by
  simp only [isFinalAnswerMsg, Bool.and_eq_true, decide_eq_true_eq] at h
  exact h.1.2

/- Lemmas about the agent loop. -/

lemma injectsHere_of_no_system (msgs : List Message)
    (h : ∀ m ∈ msgs, m.role ≠ Role.system) : injectsHere msgs = true := by
  cases msgs with
  | nil => rfl
  | cons m rest =>
    simp only [injectsHere, decide_eq_true_eq]
    exact h m (by simp)

lemma runGraph_ok (llm : LLMCap) (tc : ToolCap) :
    ∀ fuel msgs out inj steps,
      (∀ m ∈ msgs, m.role ≠ Role.system) →
      runGraph llm tc fuel msgs = .ok (out, inj, steps) →
      ∃ suffix, out = msgs ++ suffix ∧
        (∀ m ∈ suffix, m.role = Role.ai ∨ m.role = Role.tool) ∧
        inj = steps ∧ 1 ≤ steps ∧
        (∀ m ∈ out, m.role ≠ Role.system) := by
  intro fuel
  induction fuel with
  | zero =>
    intro msgs out inj steps _ h
    simp [runGraph] at h
  | succ fuel ih =>
    intro msgs out inj steps hns h
    simp only [runGraph] at h
    by_cases htc : (assistantNode llm msgs).toolCalls = []
    · rw [if_pos htc] at h
      rw [Except.ok.injEq, Prod.mk.injEq, Prod.mk.injEq] at h
      obtain ⟨h1, h2, h3⟩ := h
      refine ⟨[assistantNode llm msgs], h1.symm, ?_, ?_, ?_, ?_⟩
      · intro m hm
        rw [List.mem_singleton] at hm
        subst hm
        exact Or.inl rfl
      · rw [← h2, ← h3, injectsHere_of_no_system msgs hns, if_pos rfl]
      · omega
      · intro m hm
        rw [← h1] at hm
        rcases List.mem_append.mp hm with hl | hr
        · exact hns m hl
        · rw [List.mem_singleton] at hr
          subst hr
          simp [assistantNode]
    · rw [if_neg htc] at h
      rcases hrec : runGraph llm tc fuel
          (msgs ++ [assistantNode llm msgs] ++ toolNode tc (assistantNode llm msgs).toolCalls) with
        e | ⟨out', i, s⟩
      · rw [hrec] at h
        simp at h
      · rw [hrec] at h
        rw [Except.ok.injEq, Prod.mk.injEq, Prod.mk.injEq] at h
        obtain ⟨ho, hi, hs⟩ := h
        have hns2 : ∀ m ∈ msgs ++ [assistantNode llm msgs] ++
            toolNode tc (assistantNode llm msgs).toolCalls, m.role ≠ Role.system := by
          intro m hm
          rcases List.mem_append.mp hm with hl | hr
          · rcases List.mem_append.mp hl with hll | hlr
            · exact hns m hll
            · rw [List.mem_singleton] at hlr
              subst hlr
              simp [assistantNode]
          · simp only [toolNode, List.mem_map] at hr
            obtain ⟨c, _, hc⟩ := hr
            rw [← hc]
            simp
        obtain ⟨suffix, hout, hroles, hinj, hsteps, hall⟩ := ih _ out' i s hns2 hrec
        refine ⟨[assistantNode llm msgs] ++
            toolNode tc (assistantNode llm msgs).toolCalls ++ suffix, ?_, ?_, ?_, ?_, ?_⟩
        · rw [← ho, hout]
          simp [List.append_assoc]
        · intro m hm
          rcases List.mem_append.mp hm with hl | hr
          · rcases List.mem_append.mp hl with hll | hlr
            · rw [List.mem_singleton] at hll
              subst hll
              exact Or.inl rfl
            · simp only [toolNode, List.mem_map] at hlr
              obtain ⟨c, _, hc⟩ := hlr
              rw [← hc]
              exact Or.inr rfl
          · exact hroles m hr
        · rw [← hi, ← hs, injectsHere_of_no_system msgs hns, if_pos rfl, hinj]
        · omega
        · rw [← ho]
          exact hall

lemma runGraph_alwaysTool (llm : LLMCap) (tc : ToolCap)
    (hllm : ∀ hist, (llm hist).2 ≠ []) :
    ∀ fuel msgs, runGraph llm tc fuel msgs = .error .recursionLimit := by
  intro fuel
  induction fuel with
  | zero => intro msgs; rfl
  | succ fuel ih =>
    intro msgs
    simp only [runGraph]
    rw [if_neg (by simpa [assistantNode] using hllm (injectSystem msgs)), ih]

/- Scripted stand-ins for the language-model capability, used by the
concrete counterexamples and witnesses. -/

/-- A capability that requests the retrieval tool on every decision step
(the non-convergent case the step budget exists for). -/
def llmAlwaysTool : LLMCap := fun _ => ("", [⟨"VAT rate", 5⟩])

/-- A capability that always answers directly, with content and no tool
call. -/
def llmDirect : LLMCap := fun _ => ("Hello! Ask me about Nigerian tax law.", [])

/-- A capability that ends the turn with an empty-content message and no
tool call. -/
def llmSilent : LLMCap := fun _ => ("", [])

/-- A tool capability returning an empty result list rendering. -/
def tcEmptyList : ToolCap := fun _ => "[]"

/-- C1 counterexample: with the default recursion limit and a capability
that requests a tool call on every decision step, the turn does not
terminate with a degraded "unable to complete" answer — `query` surfaces
the graph runtime's recursion-limit error to the caller (src catches
nothing and contains no degradation path). -/
theorem stepBudget_degradedAnswer_counterexample :
    runTurn llmAlwaysTool tcEmptyList defaultRecursionLimit emptyStore
      "What is the VAT rate?" "t1" = .error .recursionLimit := rfl

/-- C1 (amended): for every capability that requests a tool call on every
decision step, and for every step budget, the turn terminates by raising
the recursion-limit error to the caller; no degraded answer is produced. -/
theorem stepBudget_exceeded_raises_recursionLimit
    (llm : LLMCap) (tc : ToolCap) (limit : Nat) (store : ThreadStore)
    (q threadId : String)
    (hllm : ∀ hist, (llm hist).2 ≠ []) :
    runTurn llm tc limit store q threadId = .error .recursionLimit := by
  simp only [runTurn]
  rw [runGraph_alwaysTool llm tc hllm]

/-- Witness for C1: the amended theorem applied to a concrete scripted
capability and budget. -/
theorem stepBudget_exceeded_raises_recursionLimit_witness :
    runTurn llmAlwaysTool tcEmptyList 3 emptyStore "loop?" "t2" =
      .error .recursionLimit :=
  stepBudget_exceeded_raises_recursionLimit llmAlwaysTool tcEmptyList 3
    emptyStore "loop?" "t2" (fun _ => by simp [llmAlwaysTool])

/-- C2 counterexample: on a first turn over an empty history the system
prompt is injected (injections = 1) yet the persisted history starts with
the human message, not the system instruction; and on the second turn of
the same thread — whose loaded history is non-empty — it is injected
again (injections = 1 again), contradicting "exactly once per thread,
only when the loaded history is empty, as its first message". -/
theorem systemPrompt_once_counterexample :
    runTurn llmDirect tcEmptyList defaultRecursionLimit emptyStore "hi" "t1" =
      .ok ⟨⟨"hi", some "Hello! Ask me about Nigerian tax law."⟩,
        [humanMsg "hi", ⟨Role.ai, "Hello! Ask me about Nigerian tax law.", []⟩], 1, 1⟩ ∧
    runTurn llmDirect tcEmptyList defaultRecursionLimit
      (nextStore emptyStore "t1"
        ⟨⟨"hi", some "Hello! Ask me about Nigerian tax law."⟩,
         [humanMsg "hi", ⟨Role.ai, "Hello! Ask me about Nigerian tax law.", []⟩], 1, 1⟩)
      "thanks" "t1" =
      .ok ⟨⟨"thanks", some "Hello! Ask me about Nigerian tax law."⟩,
        [humanMsg "hi", ⟨Role.ai, "Hello! Ask me about Nigerian tax law.", []⟩,
         humanMsg "thanks", ⟨Role.ai, "Hello! Ask me about Nigerian tax law.", []⟩], 1, 1⟩ :=
  ⟨rfl, rfl⟩

/-- C2 (amended): the system instruction is never appended to the
persisted history — provided the stored history holds no system-role
message, neither does the history after the turn; instead the prompt is
re-injected into the model input on every decision step (injections equal
assistant steps, at least one); and on completion the persisted history is
the old history, then the user message, then this turn's ai/tool steps. -/
theorem systemPrompt_transient_history_append
    (llm : LLMCap) (tc : ToolCap) (limit : Nat) (store : ThreadStore)
    (q threadId : String) (o : TurnOutcome)
    (hns : ∀ m ∈ store threadId, m.role ≠ Role.system)
    (h : runTurn llm tc limit store q threadId = .ok o) :
    o.newHistory =
      store threadId ++ humanMsg q :: o.newHistory.drop ((store threadId).length + 1) ∧
    (∀ m ∈ o.newHistory.drop ((store threadId).length + 1),
      m.role = Role.ai ∨ m.role = Role.tool) ∧
    (∀ m ∈ o.newHistory, m.role ≠ Role.system) ∧
    o.injections = o.aiSteps ∧ 1 ≤ o.aiSteps := by
  unfold runTurn at h
  rcases hg : runGraph llm tc limit (store threadId ++ [humanMsg q]) with
    e | ⟨msgs, inj, steps⟩ <;> rw [hg] at h
  · simp at h
  · rw [Except.ok.injEq] at h
    subst h
    have hns' : ∀ m ∈ store threadId ++ [humanMsg q], m.role ≠ Role.system := by
      intro m hm
      rcases List.mem_append.mp hm with hl | hr
      · exact hns m hl
      · rw [List.mem_singleton] at hr
        subst hr
        simp [humanMsg]
    obtain ⟨suffix, hout, hroles, hinj, hsteps, hall⟩ :=
      runGraph_ok llm tc limit _ msgs inj steps hns' hg
    have hdrop : msgs.drop ((store threadId).length + 1) = suffix := by
      rw [hout]
      have hlen : (store threadId ++ [humanMsg q]).length =
          (store threadId).length + 1 := by simp
      rw [← hlen, List.drop_left]
    refine ⟨?_, ?_, hall, hinj, hsteps⟩
    · show msgs = store threadId ++ humanMsg q ::
        msgs.drop ((store threadId).length + 1)
      rw [hdrop, hout]
      simp [List.append_assoc]
    · show ∀ m ∈ msgs.drop ((store threadId).length + 1),
        m.role = Role.ai ∨ m.role = Role.tool
      rw [hdrop]
      exact hroles

/-- Witness for C2: the amended theorem applied to a concrete scripted
turn; the equality and instrumentation facts are extracted binder-free. -/
theorem systemPrompt_transient_history_append_witness :
    ([humanMsg "hi", ⟨Role.ai, "Hello! Ask me about Nigerian tax law.", []⟩] : List Message) =
      emptyStore "t1" ++ humanMsg "hi" ::
        ([humanMsg "hi", ⟨Role.ai, "Hello! Ask me about Nigerian tax law.", []⟩] :
          List Message).drop ((emptyStore "t1").length + 1) ∧
    (1 : Nat) = 1 ∧ 1 ≤ (1 : Nat) :=
  ⟨(systemPrompt_transient_history_append llmDirect tcEmptyList
      defaultRecursionLimit emptyStore "hi" "t1"
      ⟨⟨"hi", some "Hello! Ask me about Nigerian tax law."⟩,
       [humanMsg "hi", ⟨Role.ai, "Hello! Ask me about Nigerian tax law.", []⟩], 1, 1⟩
      (by simp [emptyStore]) rfl).1,
   (systemPrompt_transient_history_append llmDirect tcEmptyList
      defaultRecursionLimit emptyStore "hi" "t1"
      ⟨⟨"hi", some "Hello! Ask me about Nigerian tax law."⟩,
       [humanMsg "hi", ⟨Role.ai, "Hello! Ask me about Nigerian tax law.", []⟩], 1, 1⟩
      (by simp [emptyStore]) rfl).2.2.2⟩

/-- C3 counterexample: a turn whose only ai message has empty content and
no tool call completes, and `query` returns `answer = None` — a null
value, not an explicit "no answer produced" sentinel string. -/
theorem noAnswer_sentinel_counterexample :
    runTurn llmSilent tcEmptyList defaultRecursionLimit emptyStore "q" "t1" =
      .ok ⟨⟨"q", none⟩, [humanMsg "q", ⟨Role.ai, "", []⟩], 1, 1⟩ := rfl

/-- C3 (amended): when no ai message of the final history has non-empty
content without tool calls, the returned answer is `none` (Python `None`);
the answer is in no case the empty string, so `None` remains
distinguishable from every successful answer. -/
theorem noAnswer_returns_none
    (llm : LLMCap) (tc : ToolCap) (limit : Nat) (store : ThreadStore)
    (q threadId : String) (o : TurnOutcome)
    (h : runTurn llm tc limit store q threadId = .ok o)
    (hnone : ∀ m ∈ o.newHistory, isFinalAnswerMsg m = false) :
    o.result.answer = none ∧ o.result.answer ≠ some "" := by
  unfold runTurn at h
  rcases hg : runGraph llm tc limit (store threadId ++ [humanMsg q]) with
    e | ⟨msgs, inj, steps⟩ <;> rw [hg] at h
  · simp at h
  · rw [Except.ok.injEq] at h
    subst h
    constructor
    · exact (finalAnswerScan_eq_none_iff msgs).mpr hnone
    · intro hc
      obtain ⟨m, _, hq, hcon⟩ := finalAnswerScan_some_mem msgs "" hc
      exact isFinalAnswerMsg_content_ne m hq hcon

/-- Witness for C3: the amended theorem applied to the silent scripted
capability. -/
theorem noAnswer_returns_none_witness :
    (⟨⟨"q", none⟩, [humanMsg "q", ⟨Role.ai, "", []⟩], 1, 1⟩ :
        TurnOutcome).result.answer = none ∧
    (⟨⟨"q", none⟩, [humanMsg "q", ⟨Role.ai, "", []⟩], 1, 1⟩ :
        TurnOutcome).result.answer ≠ some "" :=
  noAnswer_returns_none llmSilent tcEmptyList defaultRecursionLimit emptyStore
    "q" "t1" _ rfl (by decide)

/-- C7: a turn whose first decision response carries no tool call
terminates after exactly one decision step, and the persisted history
gains exactly the user message and one assistant message. -/
theorem direct_answer_single_decide_step
    (llm : LLMCap) (tc : ToolCap) (limit : Nat) (store : ThreadStore)
    (q threadId : String)
    (hlim : 1 ≤ limit)
    (hno : (llm (injectSystem (store threadId ++ [humanMsg q]))).2 = []) :
    ∃ o, runTurn llm tc limit store q threadId = .ok o ∧ o.aiSteps = 1 ∧
      o.newHistory = store threadId ++
        [humanMsg q,
         ⟨Role.ai, (llm (injectSystem (store threadId ++ [humanMsg q]))).1, []⟩] := by
  cases limit with
  | zero => omega
  | succ l =>
    have hresp : assistantNode llm (store threadId ++ [humanMsg q]) =
        ⟨Role.ai, (llm (injectSystem (store threadId ++ [humanMsg q]))).1, []⟩ := by
      simp only [assistantNode]
      rw [hno]
    have hgr : runGraph llm tc (l + 1) (store threadId ++ [humanMsg q]) =
        .ok (store threadId ++ [humanMsg q] ++
              [⟨Role.ai, (llm (injectSystem (store threadId ++ [humanMsg q]))).1, []⟩],
            (if injectsHere (store threadId ++ [humanMsg q]) then 1 else 0), 1) := by
      simp only [runGraph]
      rw [hresp]
      simp
    have hrt : runTurn llm tc (l + 1) store q threadId =
        .ok ⟨⟨q, finalAnswerScan (store threadId ++ [humanMsg q] ++
              [⟨Role.ai, (llm (injectSystem (store threadId ++ [humanMsg q]))).1, []⟩])⟩,
          store threadId ++ [humanMsg q] ++
            [⟨Role.ai, (llm (injectSystem (store threadId ++ [humanMsg q]))).1, []⟩],
          (if injectsHere (store threadId ++ [humanMsg q]) then 1 else 0), 1⟩ := by
      simp only [runTurn]
      rw [hgr]
    exact ⟨_, hrt, rfl, by simp [List.append_assoc]⟩

/-- Witness for C7: the theorem applied to the direct-answer scripted
capability at the default budget. -/
theorem direct_answer_single_decide_step_witness :
    ∃ o, runTurn llmDirect tcEmptyList defaultRecursionLimit emptyStore
        "hello" "t1" = .ok o ∧ o.aiSteps = 1 ∧
      o.newHistory = emptyStore "t1" ++
        [humanMsg "hello",
         ⟨Role.ai, (llmDirect (injectSystem (emptyStore "t1" ++ [humanMsg "hello"]))).1, []⟩] :=
  direct_answer_single_decide_step llmDirect tcEmptyList defaultRecursionLimit
    emptyStore "hello" "t1" (by decide) rfl

/-- C10 (implicit): the answer `query` returns is the content of the last
ai message over the whole accumulated history — previous turns included —
with non-empty content and no tool calls, and it is `none` exactly when no
such message exists anywhere in the history. -/
theorem query_answer_last_qualifying
    (llm : LLMCap) (tc : ToolCap) (limit : Nat) (store : ThreadStore)
    (q threadId : String) (o : TurnOutcome)
    (h : runTurn llm tc limit store q threadId = .ok o) :
    o.result.question = q ∧
    o.result.answer =
      ((o.newHistory.filter isFinalAnswerMsg).getLast?).map Message.content ∧
    (o.result.answer = none ↔ ∀ m ∈ o.newHistory, isFinalAnswerMsg m = false) := by
  unfold runTurn at h
  rcases hg : runGraph llm tc limit (store threadId ++ [humanMsg q]) with
    e | ⟨msgs, inj, steps⟩ <;> rw [hg] at h
  · simp at h
  · rw [Except.ok.injEq] at h
    subst h
    exact ⟨rfl, finalAnswerScan_eq_filter_getLast msgs,
      finalAnswerScan_eq_none_iff msgs⟩

/-- Witness for C10: a second turn that itself produces no qualifying
message returns the previous turn's answer, as the last qualifying message
over the full accumulated history. -/
theorem query_answer_last_qualifying_witness :
    (⟨⟨"thanks", some "Hello! Ask me about Nigerian tax law."⟩,
      [humanMsg "hi", ⟨Role.ai, "Hello! Ask me about Nigerian tax law.", []⟩,
       humanMsg "thanks", ⟨Role.ai, "", []⟩], 1, 1⟩ :
        TurnOutcome).result.answer =
      ((([humanMsg "hi", ⟨Role.ai, "Hello! Ask me about Nigerian tax law.", []⟩,
          humanMsg "thanks", ⟨Role.ai, "", []⟩] :
            List Message).filter isFinalAnswerMsg).getLast?).map Message.content :=
  (query_answer_last_qualifying llmSilent tcEmptyList defaultRecursionLimit
    (nextStore emptyStore "t1"
      ⟨⟨"hi", some "Hello! Ask me about Nigerian tax law."⟩,
       [humanMsg "hi", ⟨Role.ai, "Hello! Ask me about Nigerian tax law.", []⟩], 1, 1⟩)
    "thanks" "t1" _ rfl).2.1

/- VectorStoreManager.retrieve_documents: retriever configuration. -/

/-- The `search_kwargs` of the retriever built inside
`VectorStoreManager.retrieve_documents`: the caller-supplied `k` and a
`fetch_k` hard-coded to 10. -/
structure SearchKwargs where
  k : Nat
  fetch_k : Nat
  deriving DecidableEq, Repr

/-- `search_kwargs={"k": k, "fetch_k": 10}`. -/
def retrieveSearchKwargs (k : Nat) : SearchKwargs := ⟨k, 10⟩

/-- The declared default of the retrieval tool and of
`retrieve_documents(query, k=5)`. -/
def retrieveDefaultK : Nat := 5

/-- C6 counterexample: a capability-supplied `k = 11` gives
`fetch_k = 10 < k`, refuting "for every retrieval the candidate fetch size
satisfies fetchK ≥ k". -/
theorem fetchK_ge_k_counterexample :
    ¬ ((retrieveSearchKwargs 11).k ≤ (retrieveSearchKwargs 11).fetch_k) := by
  decide

/-- C6 (amended): the candidate fetch size is fixed at 10 for every
capability-supplied `k`; `fetchK ≥ k` therefore holds exactly for
`k ≤ 10`, and at the default `k = 5` the relation `fetchK = 2×k` holds. -/
theorem fetchK_fixed_at_ten :
    (∀ k, (retrieveSearchKwargs k).fetch_k = 10) ∧
    (∀ k, k ≤ 10 → (retrieveSearchKwargs k).k ≤ (retrieveSearchKwargs k).fetch_k) ∧
    (retrieveSearchKwargs retrieveDefaultK).fetch_k = 2 * retrieveDefaultK := by
  refine ⟨fun _ => rfl, fun k hk => ?_, by decide⟩
  simpa [retrieveSearchKwargs] using hk

/-- Witness for C6: the amended theorem applied at `k = 7`. -/
theorem fetchK_fixed_at_ten_witness :
    (retrieveSearchKwargs 7).k ≤ (retrieveSearchKwargs 7).fetch_k :=
  fetchK_fixed_at_ten.2.1 7 (by decide)

/- DocumentProcessor: filename metadata derivation and page metadata. -/

/-- ASCII digit test, modelling the character class of
`re.search(r"(20\d{2})", ...)` and `str.isdigit` over ASCII text. -/
def isAsciiDigit (c : Char) : Bool :=
  decide (48 ≤ c.toNat) && decide (c.toNat ≤ 57)

/-- Numeric value of an ASCII digit string, modelling `int(...)`. -/
def natOfDigits (s : List Char) : Nat :=
  s.foldl (fun n c => 10 * n + (c.toNat - 48)) 0

/-- Index of the first occurrence of `pat`, scanning left to right: the
search underlying `str.replace`. -/
def firstOcc (pat : List Char) : List Char → Option Nat
  | [] => if pat = [] then some 0 else none
  | c :: rest =>
    if pat.isPrefixOf (c :: rest) then some 0
    else (firstOcc pat rest).map (· + 1)

/-- Fuel-driven worker for `str.replace`: replace occurrences of `pat`
left to right, non-overlapping. -/
def replaceGo (pat repl : List Char) : Nat → List Char → List Char
  | 0, s => s
  | fuel + 1, s =>
    match firstOcc pat s with
    | none => s
    | some i => s.take i ++ repl ++ replaceGo pat repl fuel (s.drop (i + pat.length))

/-- Python `str.replace(pat, repl)` over character lists. -/
def pyReplace (s pat repl : List Char) : List Char :=
  replaceGo pat repl s.length s

/-- Python `str.strip()`: drop leading and trailing whitespace. -/
def pyStrip (s : List Char) : List Char :=
  ((s.dropWhile Char.isWhitespace).reverse.dropWhile Char.isWhitespace).reverse

/-- Worker for Python `str.title()`: letters after a letter lowercase,
letters after a non-letter uppercase. -/
def pyTitleGo : Bool → List Char → List Char
  | _, [] => []
  | prevAlpha, c :: rest =>
    (if c.isAlpha then (if prevAlpha then c.toLower else c.toUpper) else c) ::
      pyTitleGo c.isAlpha rest

/-- Python `str.title()` over character lists. -/
def pyTitle (s : List Char) : List Char := pyTitleGo false s

/-- The regex `20\d{2}` matched at the head of the list, with the integer
value of the matched text. -/
def yearAt : List Char → Option Nat
  | c1 :: c2 :: c3 :: c4 :: _ =>
    if c1 = '2' ∧ c2 = '0' ∧ isAsciiDigit c3 = true ∧ isAsciiDigit c4 = true then
      some (2000 + 10 * (c3.toNat - 48) + (c4.toNat - 48))
    else none
  | _ => none

/-- `re.search(r"(20\d{2})", name)`: the value of the leftmost match. -/
def findYear : List Char → Option Nat
  | [] => none
  | c :: rest =>
    match yearAt (c :: rest) with
    | some y => some y
    | none => findYear rest

/-- The dictionary `extract_act_metadata` returns. -/
structure ActMetadata where
  document_title : String
  act_name : String
  year : Option Nat
  document_type : String
  jurisdiction : String
  source_file : String
  deriving DecidableEq, Repr

/-- `name = filename.replace(".pdf", "").strip()`, the string the year is
searched in. -/
def actSearchName (filename : String) : List Char :=
  pyStrip (pyReplace filename.toList ".pdf".toList [])

/-- `clean_title`: underscores to spaces, commas and the ingestion
artifacts "EDITED"/"FRIDAY" removed, stripped. -/
def actCleanTitle (filename : String) : List Char :=
  pyStrip (pyReplace (pyReplace (pyReplace (pyReplace (actSearchName filename)
    "_".toList " ".toList) ",".toList []) "EDITED".toList []) "FRIDAY".toList [])

/-- `DocumentProcessor.extract_act_metadata(filename)`. -/
def extract_act_metadata (filename : String) : ActMetadata :=
  { document_title := String.mk (pyTitle (actCleanTitle filename))
    act_name := String.mk (pyTitle (actCleanTitle filename))
    year := findYear (actSearchName filename)
    document_type := "Act"
    jurisdiction := "Nigeria"
    source_file := filename }

/-- The page number `load_documents` derives from the loader's page label:
`int(page_number) if page_number and page_number.isdigit() else None`. -/
def pageNumberOf (pageLabel : Option String) : Option Nat :=
  match pageLabel with
  | none => none
  | some s =>
    if s ≠ "" ∧ s.toList.all isAsciiDigit = true then some (natOfDigits s.toList)
    else none

/-- The per-page metadata `load_documents` attaches to a page: the act
metadata of the filename plus the page number. -/
structure ChunkMetadata where
  document_title : String
  act_name : String
  year : Option Nat
  document_type : String
  jurisdiction : String
  source_file : String
  page_number : Option Nat
  deriving DecidableEq, Repr

/-- Metadata assembly of `load_documents` for one page. -/
def loadPageMetadata (filename : String) (pageLabel : Option String) :
    ChunkMetadata :=
  let a := extract_act_metadata filename
  ⟨a.document_title, a.act_name, a.year, a.document_type, a.jurisdiction,
   a.source_file, pageNumberOf pageLabel⟩

/-- One entry of the result list `retrieve_documents` builds from a
retrieved chunk's content and metadata. -/
structure RetrievalResult where
  content : String
  document_title : String
  act_name : String
  page_number : Option Nat
  year : Option Nat
  jurisdiction : String
  source_file : String
  deriving DecidableEq, Repr

/-- The result-dictionary construction loop of `retrieve_documents`. -/
def retrievalResultOf (content : String) (m : ChunkMetadata) : RetrievalResult :=
  ⟨content, m.document_title, m.act_name, m.page_number, m.year,
   m.jurisdiction, m.source_file⟩

lemma yearAt_some_bounds (s : List Char) (y : Nat) (h : yearAt s = some y) :
    2000 ≤ y ∧ y ≤ 2099 := by
  cases s with
  | nil => simp [yearAt] at h
  | cons c1 t1 =>
    cases t1 with
    | nil => simp [yearAt] at h
    | cons c2 t2 =>
      cases t2 with
      | nil => simp [yearAt] at h
      | cons c3 t3 =>
        cases t3 with
        | nil => simp [yearAt] at h
        | cons c4 t4 =>
          simp only [yearAt] at h
          split at h
          · rename_i hcond
            obtain ⟨_, _, h3, h4⟩ := hcond
            simp only [isAsciiDigit, Bool.and_eq_true, decide_eq_true_eq] at h3 h4
            rw [Option.some.injEq] at h
            omega
          · simp at h

lemma findYear_some_bounds (s : List Char) (y : Nat)
    (h : findYear s = some y) : 2000 ≤ y ∧ y ≤ 2099 := by
  induction s with
  | nil => simp [findYear] at h
  | cons c rest ih =>
    simp only [findYear] at h
    rcases hya : yearAt (c :: rest) with _ | y' <;> rw [hya] at h
    · exact ih h
    · rw [Option.some.injEq] at h
      subst h
      exact yearAt_some_bounds _ _ hya

lemma findYear_none_complete (s : List Char) (h : findYear s = none) :
    ∀ pre c3 c4 post, s = pre ++ '2' :: '0' :: c3 :: c4 :: post →
      isAsciiDigit c3 = false ∨ isAsciiDigit c4 = false := by
  induction s with
  | nil =>
    intro pre c3 c4 post heq
    cases pre <;> simp at heq
  | cons c rest ih =>
    simp only [findYear] at h
    rcases hya : yearAt (c :: rest) with _ | y' <;> rw [hya] at h
    · intro pre c3 c4 post heq
      cases pre with
      | nil =>
        rw [List.nil_append] at heq
        injection heq with hc hrest
        subst hc
        subst hrest
        by_contra hcontra
        push_neg at hcontra
        obtain ⟨h3, h4⟩ := hcontra
        rw [Bool.ne_false_iff] at h3 h4
        rw [yearAt, if_pos ⟨rfl, rfl, h3, h4⟩] at hya
        exact absurd hya (by simp)
      | cons p pre' =>
        rw [List.cons_append] at heq
        injection heq with _ hrest
        exact ih h pre' c3 c4 post hrest
    · simp at h

/-- C4 counterexample: a page whose loader label is the roman numeral
"iv" (as front matter pages are labelled) yields a retrieval result with
`page_number = None`, refuting "page_number is present and non-null on
every RetrievalResult". -/
theorem provenance_nonnull_counterexample :
    (retrievalResultOf "Part I - Preliminary"
      (loadPageMetadata "Nigeria_Tax_Act_2025.pdf" (some "iv"))).page_number =
      none := rfl

/-- C4 (amended): every retrieval result carries the act name derived
from the filename, the source file, and the fixed jurisdiction — these
textual provenance fields are always present; `page_number` however is
populated only when the page's loader label is a non-empty digit string,
and is null otherwise. -/
theorem provenance_fields (filename : String) (pageLabel : Option String)
    (content : String) :
    (retrievalResultOf content (loadPageMetadata filename pageLabel)).act_name =
      String.mk (pyTitle (actCleanTitle filename)) ∧
    (retrievalResultOf content (loadPageMetadata filename pageLabel)).source_file =
      filename ∧
    (retrievalResultOf content (loadPageMetadata filename pageLabel)).jurisdiction =
      "Nigeria" ∧
    (retrievalResultOf content (loadPageMetadata filename pageLabel)).page_number.isSome =
      (match pageLabel with
       | none => false
       | some s => decide (s ≠ "") && s.toList.all isAsciiDigit) := by
  refine ⟨rfl, rfl, rfl, ?_⟩
  cases pageLabel with
  | none => rfl
  | some s =>
    show (pageNumberOf (some s)).isSome = _
    simp only [pageNumberOf]
    by_cases h : s ≠ "" ∧ s.toList.all isAsciiDigit = true
    · rw [if_pos h, h.2, decide_eq_true h.1]
      rfl
    · rw [if_neg h]
      by_cases hs : s = ""
      · subst hs
        rfl
      · have hall : ¬ s.toList.all isAsciiDigit = true := fun ha => h ⟨hs, ha⟩
        rw [Bool.not_eq_true] at hall
        rw [hall, Bool.and_false]
        rfl

/-- C9: `extract_act_metadata` is a pure function of the filename with
fixed jurisdiction "Nigeria" and document type "Act", `source_file` equal
to the input, the title produced by stripping the extension and the
ingestion-artifact tokens and title-casing, the year being the value of
the first `20\d{2}` substring — always in 2000..2099 — and absent exactly
when no such substring occurs in the stripped name. -/
theorem extract_metadata_contract (filename : String) :
    (extract_act_metadata filename).jurisdiction = "Nigeria" ∧
    (extract_act_metadata filename).document_type = "Act" ∧
    (extract_act_metadata filename).source_file = filename ∧
    (extract_act_metadata filename).document_title =
      String.mk (pyTitle (actCleanTitle filename)) ∧
    (extract_act_metadata filename).act_name =
      (extract_act_metadata filename).document_title ∧
    (∀ y, (extract_act_metadata filename).year = some y →
      2000 ≤ y ∧ y ≤ 2099) ∧
    ((extract_act_metadata filename).year = none →
      ∀ pre c3 c4 post,
        actSearchName filename = pre ++ '2' :: '0' :: c3 :: c4 :: post →
        isAsciiDigit c3 = false ∨ isAsciiDigit c4 = false) :=
  ⟨rfl, rfl, rfl, rfl, rfl,
   fun y hy => findYear_some_bounds (actSearchName filename) y hy,
   fun hn => findYear_none_complete (actSearchName filename) hn⟩

/-- Witness for C9: the contract applied to the corpus filename
"Nigeria_Tax_Act_2025.pdf", whose derived year 2025 lies in 2000..2099. -/
theorem extract_metadata_contract_witness : 2000 ≤ 2025 ∧ 2025 ≤ 2099 :=
  (extract_metadata_contract "Nigeria_Tax_Act_2025.pdf").2.2.2.2.2.1 2025 rfl

/- VectorIndex.Query — ranked retrieval with diversity re-ranking.
   The nearest-neighbour fetch and the maximal-marginal-relevance
   re-ranking run inside the external langchain/Chroma dependency
   (`search_type="mmr"`, invoked by retrieve_documents), not in src/;
   the definitions below are modelled from the spec: fetch the fetchK
   nearest neighbours, greedily re-rank by an MMR criterion trading
   query-similarity against result-to-result diversity, return the top k,
   ties broken stably by original similarity rank. Chunk identities are
   abstracted to naturals, similarities to rational-valued functions. -/

/-- Modelled from the spec: the largest similarity of candidate `c` to an
already-selected result (0 when nothing has been selected yet). -/
def mmrMaxSim (sim : Nat → Nat → ℚ) (c : Nat) (selected : List Nat) : ℚ :=
  (selected.map (fun s => sim c s)).foldl max 0

/-- Modelled from the spec: the MMR criterion — query relevance traded
off against diversity with mixing weight `lam`. -/
def mmrScore (lam : ℚ) (simQ : Nat → ℚ) (sim : Nat → Nat → ℚ)
    (selected : List Nat) (c : Nat) : ℚ :=
  lam * simQ c - (1 - lam) * mmrMaxSim sim c selected

/-- First maximiser of `f` in a list: the earliest of equal scores wins,
realizing the spec's stable tie-break by original similarity rank. -/
def argmaxQ (f : Nat → ℚ) : List Nat → Option Nat
  | [] => none
  | x :: xs =>
    match argmaxQ f xs with
    | none => some x
    | some y => if f y > f x then some y else some x

/-- Modelled from the spec: the greedy MMR selection loop — emit the
best-scoring remaining candidate, move it into the selection, repeat up
to `k` times or until candidates run out. -/
def mmrSelectGo (lam : ℚ) (simQ : Nat → ℚ) (sim : Nat → Nat → ℚ) :
    Nat → List Nat → List Nat → List Nat
  | 0, _, _ => []
  | k + 1, remaining, selected =>
    match argmaxQ (mmrScore lam simQ sim selected) remaining with
    | none => []
    | some c =>
      c :: mmrSelectGo lam simQ sim k (remaining.erase c) (selected ++ [c])

/-- Modelled from the spec: MMR re-ranking of a candidate list. -/
def mmrSelect (lam : ℚ) (simQ : Nat → ℚ) (sim : Nat → Nat → ℚ)
    (k : Nat) (candidates : List Nat) : List Nat :=
  mmrSelectGo lam simQ sim k candidates []

/-- Modelled from the spec: `VectorIndex.Query` — take the `fetchK`
nearest neighbours of the index (given in similarity order), re-rank them
by MMR, return the top `k`. -/
def vectorIndexQuery (lam : ℚ) (simQ : Nat → ℚ) (sim : Nat → Nat → ℚ)
    (index : List Nat) (k fetchK : Nat) : List Nat :=
  mmrSelect lam simQ sim k (index.take fetchK)

/-- The ordering the MMR ranking dictates: each emitted element is a
maximal-score remaining candidate given everything selected before it, so
the output is exactly the decreasing MMR rank order. -/
inductive IsMMRSelection (lam : ℚ) (simQ : Nat → ℚ) (sim : Nat → Nat → ℚ) :
    List Nat → List Nat → Nat → List Nat → Prop
  | stopBudget (selected remaining : List Nat) :
      IsMMRSelection lam simQ sim selected remaining 0 []
  | stopEmpty (selected : List Nat) (k : Nat) :
      IsMMRSelection lam simQ sim selected [] k []
  | step (selected remaining : List Nat) (k c : Nat) (out : List Nat)
      (hmem : c ∈ remaining)
      (hmax : ∀ d ∈ remaining,
        mmrScore lam simQ sim selected d ≤ mmrScore lam simQ sim selected c)
      (hrec : IsMMRSelection lam simQ sim (selected ++ [c])
        (remaining.erase c) k out) :
      IsMMRSelection lam simQ sim selected remaining (k + 1) (c :: out)

lemma argmaxQ_eq_none (f : Nat → ℚ) : ∀ l, argmaxQ f l = none → l = [] := by
  intro l h
  cases l with
  | nil => rfl
  | cons x xs =>
    simp only [argmaxQ] at h
    split at h
    · simp at h
    · split at h <;> simp at h

lemma argmaxQ_mem (f : Nat → ℚ) : ∀ l c, argmaxQ f l = some c → c ∈ l := by
  intro l
  induction l with
  | nil => intro c h; simp [argmaxQ] at h
  | cons x xs ih =>
    intro c h
    simp only [argmaxQ] at h
    split at h
    · rw [Option.some.injEq] at h
      subst h
      exact List.mem_cons_self x xs
    · rename_i y hy
      split at h <;> rw [Option.some.injEq] at h <;> subst h
      · exact List.mem_cons_of_mem x (ih _ hy)
      · exact List.mem_cons_self x xs

lemma argmaxQ_le (f : Nat → ℚ) : ∀ l c, argmaxQ f l = some c →
    ∀ d ∈ l, f d ≤ f c := by
  intro l
  induction l with
  | nil => intro c h; simp [argmaxQ] at h
  | cons x xs ih =>
    intro c h d hd
    simp only [argmaxQ] at h
    split at h
    · rename_i hnone
      rw [Option.some.injEq] at h
      subst h
      have hxs : xs = [] := argmaxQ_eq_none f xs hnone
      subst hxs
      rw [List.mem_singleton] at hd
      subst hd
      exact le_refl _
    · rename_i y hy
      have hdy : ∀ e ∈ xs, f e ≤ f y := ih y hy
      split at h <;> rename_i hgt <;> rw [Option.some.injEq] at h <;> subst h
      · rcases List.mem_cons.mp hd with hdx | hdxs
        · subst hdx
          exact le_of_lt hgt
        · exact hdy d hdxs
      · rcases List.mem_cons.mp hd with hdx | hdxs
        · subst hdx
          exact le_refl _
        · exact (hdy d hdxs).trans (le_of_not_lt hgt)

lemma mmrSelectGo_subset (lam : ℚ) (simQ : Nat → ℚ) (sim : Nat → Nat → ℚ) :
    ∀ k remaining selected x,
      x ∈ mmrSelectGo lam simQ sim k remaining selected → x ∈ remaining := by
  intro k
  induction k with
  | zero => intro remaining selected x hx; simp [mmrSelectGo] at hx
  | succ k ih =>
    intro remaining selected x hx
    simp only [mmrSelectGo] at hx
    split at hx
    · simp at hx
    · rename_i c hc
      rcases List.mem_cons.mp hx with h | h
      · subst h
        exact argmaxQ_mem _ _ _ hc
      · exact List.erase_subset _ _ (ih _ _ x h)

lemma mmrSelectGo_nodup (lam : ℚ) (simQ : Nat → ℚ) (sim : Nat → Nat → ℚ) :
    ∀ k remaining selected, remaining.Nodup →
      (mmrSelectGo lam simQ sim k remaining selected).Nodup := by
  intro k
  induction k with
  | zero => intro remaining selected _; simp [mmrSelectGo]
  | succ k ih =>
    intro remaining selected hnd
    simp only [mmrSelectGo]
    split
    · simp
    · rename_i c hc
      rw [List.nodup_cons]
      refine ⟨?_, ih _ _ (hnd.erase c)⟩
      intro hmem
      have : c ∈ remaining.erase c := mmrSelectGo_subset lam simQ sim k _ _ c hmem
      rw [hnd.mem_erase_iff] at this
      exact this.1 rfl

lemma mmrSelectGo_length (lam : ℚ) (simQ : Nat → ℚ) (sim : Nat → Nat → ℚ) :
    ∀ k remaining selected,
      (mmrSelectGo lam simQ sim k remaining selected).length ≤ k := by
  intro k
  induction k with
  | zero => intro remaining selected; simp [mmrSelectGo]
  | succ k ih =>
    intro remaining selected
    simp only [mmrSelectGo]
    split
    · simp
    · simpa using Nat.succ_le_succ (ih _ _)

lemma mmrSelectGo_greedy (lam : ℚ) (simQ : Nat → ℚ) (sim : Nat → Nat → ℚ) :
    ∀ k remaining selected,
      IsMMRSelection lam simQ sim selected remaining k
        (mmrSelectGo lam simQ sim k remaining selected) := by
  intro k
  induction k with
  | zero =>
    intro remaining selected
    exact .stopBudget selected remaining
  | succ k ih =>
    intro remaining selected
    simp only [mmrSelectGo]
    split
    · rename_i hnone
      have : remaining = [] := argmaxQ_eq_none _ _ hnone
      subst this
      exact .stopEmpty selected (k + 1)
    · rename_i c hc
      exact .step selected remaining k c _ (argmaxQ_mem _ _ _ hc)
        (argmaxQ_le _ _ _ hc) (ih _ _)

/-- C5: for fetchK ≥ k over a duplicate-free candidate index, the ranked
retrieval returns at most k results, with no duplicate chunk identities,
in exactly the (strictly rank-decreasing) order of the greedy
maximal-marginal-relevance ranking. -/
theorem query_topk_ordered_nodup
    (lam : ℚ) (simQ : Nat → ℚ) (sim : Nat → Nat → ℚ)
    (index : List Nat) (k fetchK : Nat)
    (hk : k ≤ fetchK) (hnd : index.Nodup) :
    (vectorIndexQuery lam simQ sim index k fetchK).length ≤ k ∧
    (vectorIndexQuery lam simQ sim index k fetchK).Nodup ∧
    IsMMRSelection lam simQ sim [] (index.take fetchK) k
      (vectorIndexQuery lam simQ sim index k fetchK) :=
  ⟨mmrSelectGo_length lam simQ sim k (index.take fetchK) [],
   mmrSelectGo_nodup lam simQ sim k (index.take fetchK) []
     ((List.take_sublist fetchK index).nodup hnd),
   mmrSelectGo_greedy lam simQ sim k (index.take fetchK) []⟩

/-- A concrete query-similarity function for the C5 witness. -/
def simQw : Nat → ℚ := fun n => 10 - n

/-- A concrete pairwise-similarity function for the C5 witness. -/
def simw : Nat → Nat → ℚ := fun a b => if a = b then 1 else 0

/-- Witness for C5: the theorem applied to a concrete four-candidate
index with k = 2, fetchK = 4. -/
theorem query_topk_ordered_nodup_witness :
    (vectorIndexQuery (1/2) simQw simw [0, 1, 2, 3] 2 4).length ≤ 2 ∧
    (vectorIndexQuery (1/2) simQw simw [0, 1, 2, 3] 2 4).Nodup ∧
    IsMMRSelection (1/2) simQw simw [] ([0, 1, 2, 3].take 4) 2
      (vectorIndexQuery (1/2) simQw simw [0, 1, 2, 3] 2 4) :=
  query_topk_ordered_nodup (1/2) simQw simw [0, 1, 2, 3] 2 4
    (by decide) (by decide)

/- DocumentProcessor chunking. The splitting itself runs inside the
   external langchain RecursiveCharacterTextSplitter constructed in
   DocumentProcessor.__init__ and invoked by chunk_documents, not in
   src/; the definitions below are modelled from the spec: a
   deterministic sliding-window split per page with constraint
   0 ≤ overlap < chunkSize enforced at construction (reject otherwise),
   consecutive chunks sharing `overlap` trailing/leading characters. -/

/-- The chunker configuration held by `DocumentProcessor`. -/
structure DocumentProcessorCfg where
  chunk_size : Nat
  chunk_overlap : Nat
  deriving DecidableEq, Repr

/-- Modelled from the spec: construction of the document processor,
rejecting any configuration with overlap ≥ chunkSize. -/
def mkDocumentProcessor (chunkSize overlap : Nat) :
    Except String DocumentProcessorCfg :=
  if overlap < chunkSize then .ok ⟨chunkSize, overlap⟩
  else .error "chunk overlap must be smaller than chunk size"

/-- Modelled from the spec: fuel-driven sliding-window worker — emit a
window of `chunkSize` characters, advance by `chunkSize - overlap`,
until the remaining text fits in one final (possibly shorter) chunk. -/
def slidingChunksGo (chunkSize overlap : Nat) : Nat → List Char → List (List Char)
  | 0, _ => []
  | fuel + 1, s =>
    if s = [] then []
    else if s.length ≤ chunkSize then [s]
    else s.take chunkSize ::
      slidingChunksGo chunkSize overlap fuel (s.drop (chunkSize - overlap))

/-- Modelled from the spec: sliding-window split of one page's text. -/
def slidingChunks (chunkSize overlap : Nat) (s : List Char) : List (List Char) :=
  slidingChunksGo chunkSize overlap s.length s

/-- `DocumentProcessor.chunk_documents`: split every page, concatenating
the per-page chunk sequences in order. -/
def chunk_documents (cfg : DocumentProcessorCfg) (pages : List (List Char)) :
    List (List Char) :=
  pages.foldr (fun p acc => slidingChunks cfg.chunk_size cfg.chunk_overlap p ++ acc) []

lemma slidingChunksGo_length_bounds (chunkSize overlap : Nat)
    (hov : overlap < chunkSize) :
    ∀ fuel s c, c ∈ slidingChunksGo chunkSize overlap fuel s →
      1 ≤ c.length ∧ c.length ≤ chunkSize := by
  intro fuel
  induction fuel with
  | zero => intro s c hc; simp [slidingChunksGo] at hc
  | succ fuel ih =>
    intro s c hc
    simp only [slidingChunksGo] at hc
    split at hc
    · simp at hc
    · rename_i hne
      split at hc
      · rename_i hfit
        rw [List.mem_singleton] at hc
        subst hc
        refine ⟨?_, hfit⟩
        have : c ≠ [] := hne
        have : 0 < c.length := List.length_pos.mpr this
        omega
      · rename_i hbig
        rcases List.mem_cons.mp hc with h | h
        · subst h
          rw [List.length_take]
          omega
        · exact ih _ c h

lemma chunk_documents_mem (cfg : DocumentProcessorCfg)
    (pages : List (List Char)) (c : List Char)
    (hc : c ∈ chunk_documents cfg pages) :
    ∃ p ∈ pages, c ∈ slidingChunks cfg.chunk_size cfg.chunk_overlap p := by
  induction pages with
  | nil => simp [chunk_documents] at hc
  | cons p ps ih =>
    simp only [chunk_documents, List.foldr_cons] at hc
    rcases List.mem_append.mp hc with h | h
    · exact ⟨p, by simp, h⟩
    · obtain ⟨p', hp', hcp'⟩ := ih h
      exact ⟨p', by simp [hp'], hcp'⟩

/-- C8: a configuration with overlap ≥ chunkSize is rejected at
construction; and under 0 ≤ overlap < chunkSize every chunk produced by
`chunk_documents` from any document list has between 1 and chunkSize
characters. -/
theorem chunker_rejects_and_bounds (chunkSize overlap : Nat) :
    (chunkSize ≤ overlap →
      mkDocumentProcessor chunkSize overlap =
        .error "chunk overlap must be smaller than chunk size") ∧
    (overlap < chunkSize →
      ∀ (pages : List (List Char)) c,
        c ∈ chunk_documents ⟨chunkSize, overlap⟩ pages →
        1 ≤ c.length ∧ c.length ≤ chunkSize) := by
  constructor
  · intro hle
    rw [mkDocumentProcessor, if_neg (by omega)]
  · intro hov pages c hc
    obtain ⟨p, _, hcp⟩ := chunk_documents_mem ⟨chunkSize, overlap⟩ pages c hc
    exact slidingChunksGo_length_bounds chunkSize overlap hov p.length p c hcp

/-- Witness for C8: the bounds applied to a concrete page split with
chunkSize = 5, overlap = 2 (and the rejection shown at 5, 5 through the
same theorem in the first conjunct at another instance). -/
theorem chunker_rejects_and_bounds_witness :
    (mkDocumentProcessor 5 5 =
      .error "chunk overlap must be smaller than chunk size") ∧
    (1 ≤ (['a', 'b', 'c', 'd', 'e'] : List Char).length ∧
      (['a', 'b', 'c', 'd', 'e'] : List Char).length ≤ 5) :=
  ⟨(chunker_rejects_and_bounds 5 5).1 (by decide),
   (chunker_rejects_and_bounds 5 2).2 (by decide)
     [['a', 'b', 'c', 'd', 'e', 'f', 'g', 'h']] ['a', 'b', 'c', 'd', 'e']
     (by decide)⟩

end NigeriaTaxRAG
